import Mathlib

/-!
Shallow embedding of the FIFO gain/loss calculator (`src/streamlit_app.py`).

The core computation (lines 104-176 of the source) is embedded over exact
rationals: quantities and prices become `ℚ`, pandas timestamps become
`Option ℤ` (`none` models `NaT`, an unparseable date coerced by
`pd.to_datetime(..., errors='coerce')`), and the string sentinel `'Unknown'`
used in matched-lot tuples becomes `Option.none` in the corresponding field.
The per-row `try/except` around `float(...)` conversion is modelled by the
quantity/price cells being `Option ℚ` (`none` = the conversion raises).
-/

namespace FifoCalc

/-- A timestamp as produced by `pd.to_datetime(..., errors='coerce')`:
`some t` is a valid timestamp, `none` is `NaT` (invalid/null date). -/
abbrev Date := Option ℤ

/-- Date comparison with `NaT` ordered after every valid timestamp
(pandas places `NaT` last when sorting). -/
def dateLE : Date → Date → Prop
  | _, none => True
  | none, some _ => False
  | some x, some y => x ≤ y

instance (a b : Date) : Decidable (dateLE a b) := by
  cases a <;> cases b <;> simp only [dateLE] <;> infer_instance

/-- An open lot in the FIFO queue: the source stores `[qty, price, date]`
(line 137), where `qty` is the remaining quantity, mutated in place. -/
structure Lot where
  qty : ℚ
  price : ℚ
  date : Date
deriving DecidableEq

/-- One matched-lot tuple `(used_qty, buy_price, buy_date, price, gain)`
(lines 151 and 160).  A `none` in `buyPrice`, `buyDate` or `gain` encodes
the string `'Unknown'` used by the source for sales with no recorded buy. -/
structure MatchedLot where
  usedQty : ℚ
  buyPrice : Option ℚ
  buyDate : Option Date
  salePrice : ℚ
  gain : Option ℚ
deriving DecidableEq

/-- Python's `round(x, 2)` on exact rationals: round to 2 decimal places,
ties to even (banker's rounding). -/
def pyRound2 (x : ℚ) : ℚ :=
  let y := x * 100
  let n : ℤ :=
    if y - ⌊y⌋ < 1/2 then ⌊y⌋
    else if y - ⌊y⌋ > 1/2 then ⌊y⌋ + 1
    else if ⌊y⌋ % 2 = 0 then ⌊y⌋ else ⌊y⌋ + 1
  (n : ℚ) / 100

/-- The sell-matching loop (source lines 139-162):
`while sell_qty > 0:` take the front lot, use `min(sell_qty, buy_qty)` of
it, record the matched lot with per-lot gain (rounded when `roundGains`),
pop the front lot when fully used or decrement it in place otherwise; when
the queue is empty the whole remaining quantity becomes one `'Unknown'`
matched lot that does not contribute to the running `total_gain`.
Returns `(total_gain, lots, queue)`.  The recursion is structural on the
queue: an iteration that does not pop the front lot sets `sell_qty` to `0`,
so the loop body after it never runs again. -/
def sellLoop (roundGains : Bool) (price : ℚ) (sellQty : ℚ) :
    List Lot → ℚ × List MatchedLot × List Lot
  | [] =>
    if sellQty > 0 then (0, [⟨sellQty, none, none, price, none⟩], [])
    else (0, [], [])
  | lot :: rest =>
    if sellQty > 0 then
      let used := min sellQty lot.qty
      let gain0 := used * (price - lot.price)
      let gain := if roundGains then pyRound2 gain0 else gain0
      let ml : MatchedLot := ⟨used, some lot.price, some lot.date, price, some gain⟩
      if used = lot.qty then
        let r := sellLoop roundGains price (sellQty - used) rest
        (gain + r.1, ml :: r.2.1, r.2.2)
      else
        (gain, [ml], ⟨lot.qty - used, lot.price, lot.date⟩ :: rest)
    else (0, [], lot :: rest)

/-- The configuration relevant to the computation: the selected Buy and
Sell type values (lines 97-98) and the rounding checkbox (line 82). -/
structure Config where
  buyVals : List String
  sellVals : List String
  roundGains : Bool
deriving DecidableEq

/-- One input row after date parsing and column mapping.  `qtyRaw` and
`priceRaw` are `none` when `float(...)` on that cell raises (line 128-130),
`some x` when it yields the number `x` (before `abs` for the quantity). -/
structure Row where
  date : Date
  ttype : String
  qtyRaw : Option ℚ
  priceRaw : Option ℚ
  ident : String
  curr : String
deriving DecidableEq

/-- The row-level conversion of lines 126-129: `qty = abs(float(...))`,
`price = float(...)`; `none` when either conversion raises, in which case
the source warns and `continue`s (lines 130-132). -/
def parseRow (r : Row) : Option (ℚ × ℚ) :=
  match r.qtyRaw, r.priceRaw with
  | some q, some p => some (|q|, p)
  | _, _ => none

/-- One entry of `results` (lines 164-173).  `totalGain` is always numeric:
the guard `total_gain if isinstance(total_gain, (int, float)) else 'Unknown'`
on line 170 is the identity because `total_gain` starts at `0` and is only
ever incremented by numbers. -/
structure SaleResult where
  date : Date
  ident : String
  curr : String
  salePrice : ℚ
  sellQty : ℚ
  totalGain : ℚ
  lots : List MatchedLot
deriving DecidableEq

/-- The state threaded through one group's row loop: the FIFO queue
(line 123), the accumulated results, and the number of skipped-row
warnings emitted (line 131). -/
structure GroupState where
  queue : List Lot
  results : List SaleResult
  warnings : ℕ
deriving DecidableEq

def initState : GroupState := ⟨[], [], 0⟩

/-- Processing of one row inside a group (lines 124-173): parse quantity
and price (skip the row with a warning on failure), then append a lot on a
Buy, run the sell loop and record a Sale Result on a Sell, and otherwise
ignore the row.  The `extra_id_cols` pass-through attributes carry no
computational content and are omitted. -/
def processRow (cfg : Config) (st : GroupState) (r : Row) : GroupState :=
  match parseRow r with
  | none => { st with warnings := st.warnings + 1 }
  | some (qty, price) =>
    if r.ttype ∈ cfg.buyVals then
      { st with queue := st.queue ++ [⟨qty, price, r.date⟩] }
    else if r.ttype ∈ cfg.sellVals then
      let res := sellLoop cfg.roundGains price qty st.queue
      { st with
          queue := res.2.2,
          results := st.results ++ [⟨r.date, r.ident, r.curr, price, qty, res.1, res.2.1⟩] }
    else st

/-- One group's processing: a fold of `processRow` over the group's rows,
starting from an empty queue (lines 122-173). -/
def processGroup (cfg : Config) (rows : List Row) : GroupState :=
  rows.foldl (processRow cfg) initState

/-- `df.sort_values(by=date_col)` (line 111): ascending by date, `NaT`
placed after all valid dates.  Modelled with a stable merge sort; note the
source's pandas call uses the default `kind='quicksort'`, which does not
guarantee stability for equal dates. -/
def sortRows (rows : List Row) : List Row :=
  rows.mergeSort fun a b => decide (dateLE a.date b.date)

/-- The `(identifier, currency)` grouping key (lines 112-118, 122). -/
def keyOf (r : Row) : String × String := (r.ident, r.curr)

/-- Lexicographic comparison of grouping keys: `df.groupby` iterates
groups in sorted key order. -/
def keyLE (a b : String × String) : Bool :=
  decide (a.1 < b.1) || (decide (a.1 = b.1) && decide (a.2 ≤ b.2))

/-- The distinct grouping keys in the order `df.groupby` yields them. -/
def groupKeys (rows : List Row) : List (String × String) :=
  ((rows.map keyOf).dedup).mergeSort keyLE

/-- The whole `Run FIFO Calculation` computation (lines 104-173): sort by
date, group by `(identifier, currency)`, and process each group
independently with a fresh queue, concatenating the groups' results. -/
def computeAll (cfg : Config) (rows : List Row) : List SaleResult :=
  let sorted := sortRows rows
  (groupKeys sorted).flatMap fun k =>
    (processGroup cfg (sorted.filter fun r => decide (keyOf r = k))).results

inductive CalcError where
  | configError
deriving DecidableEq

/-- The computation guarded by the configuration check of lines 100-102:
`if not buy_vals or not sell_vals: st.error(...); st.stop()` aborts before
any FIFO processing runs. -/
def runCalc (cfg : Config) (rows : List Row) : Except CalcError (List SaleResult) :=
  if cfg.buyVals = [] ∨ cfg.sellVals = [] then .error .configError
  else .ok (computeAll cfg rows)

/-! ### Helper lemmas about the sell loop -/

theorem sellLoop_nonpos (rg : Bool) (p s : ℚ) (q : List Lot) (h : ¬ s > 0) :
    sellLoop rg p s q = (0, [], q) := by
  cases q <;> simp [sellLoop, h]

theorem sellLoop_sum_used (rg : Bool) (p : ℚ) :
    ∀ (q : List Lot) (s : ℚ), 0 ≤ s →
      (((sellLoop rg p s q).2.1).map MatchedLot.usedQty).sum = s := by
  intro q
  induction q with
  | nil =>
    intro s hs
    by_cases h : s > 0
    · simp [sellLoop, h]
    · simp [sellLoop, h]
      linarith
  | cons lot rest ih =>
    intro s hs
    by_cases h : s > 0
    · by_cases he : min s lot.qty = lot.qty
      · have hle : min s lot.qty ≤ s := min_le_left _ _
        simp only [sellLoop, if_pos h, if_pos he, List.map_cons, List.sum_cons]
        rw [ih (s - min s lot.qty) (by linarith)]
        ring
      · have hmin : min s lot.qty = s := by
          rcases le_total s lot.qty with h1 | h1
          · exact min_eq_left h1
          · exact absurd (min_eq_right h1) he
        simp only [sellLoop, if_pos h, if_neg he, List.map_cons, List.map_nil,
          List.sum_cons, List.sum_nil]
        rw [hmin]; ring
    · simp [sellLoop, h]
      linarith

/-- The gain a matched lot contributes to the sale's running total, as a
function of the sale price: `used * (salePrice - costBasis)` (rounded per
lot when configured) for a known cost basis, `0` for an `'Unknown'` one. -/
def lotGainAt (rg : Bool) (salePrice : ℚ) (ml : MatchedLot) : ℚ :=
  match ml.buyPrice with
  | some b =>
    if rg then pyRound2 (ml.usedQty * (salePrice - b))
    else ml.usedQty * (salePrice - b)
  | none => 0

theorem sellLoop_gain_eq (rg : Bool) (p : ℚ) :
    ∀ (q : List Lot) (s : ℚ),
      (sellLoop rg p s q).1 =
        (((sellLoop rg p s q).2.1).map (lotGainAt rg p)).sum := by
  intro q
  induction q with
  | nil =>
    intro s
    by_cases h : s > 0 <;> simp [sellLoop, h, lotGainAt]
  | cons lot rest ih =>
    intro s
    by_cases h : s > 0
    · by_cases he : min s lot.qty = lot.qty
      · simp only [sellLoop, if_pos h, if_pos he, List.map_cons, List.sum_cons]
        rw [ih (s - min s lot.qty)]
        simp [lotGainAt]
      · simp only [sellLoop, if_pos h, if_neg he, List.map_cons, List.map_nil,
          List.sum_cons, List.sum_nil]
        simp [lotGainAt]
    · simp [sellLoop, h]

theorem sellLoop_lots_length (rg : Bool) (p : ℚ) :
    ∀ (q : List Lot) (s : ℚ),
      ((sellLoop rg p s q).2.1).length ≤ q.length + 1 := by
  intro q
  induction q with
  | nil =>
    intro s
    by_cases h : s > 0 <;> simp [sellLoop, h]
  | cons lot rest ih =>
    intro s
    by_cases h : s > 0
    · by_cases he : min s lot.qty = lot.qty
      · simp only [sellLoop, if_pos h, if_pos he, List.length_cons]
        have := ih (s - min s lot.qty)
        simpa using Nat.succ_le_succ this
      · simp [sellLoop, h, he]
    · simp [sellLoop, h]

theorem sellLoop_queue_length (rg : Bool) (p : ℚ) :
    ∀ (q : List Lot) (s : ℚ),
      ((sellLoop rg p s q).2.2).length ≤ q.length := by
  intro q
  induction q with
  | nil =>
    intro s
    by_cases h : s > 0 <;> simp [sellLoop, h]
  | cons lot rest ih =>
    intro s
    by_cases h : s > 0
    · by_cases he : min s lot.qty = lot.qty
      · simp only [sellLoop, if_pos h, if_pos he, List.length_cons]
        exact le_trans (ih (s - min s lot.qty)) (Nat.le_succ _)
      · simp [sellLoop, h, he]
    · simp [sellLoop, h]

theorem sellLoop_dropLast_known (rg : Bool) (p : ℚ) :
    ∀ (q : List Lot) (s : ℚ),
      ∀ ml ∈ ((sellLoop rg p s q).2.1).dropLast, ml.buyPrice.isSome = true := by
  intro q
  induction q with
  | nil =>
    intro s
    by_cases h : s > 0 <;> simp [sellLoop, h]
  | cons lot rest ih =>
    intro s
    by_cases h : s > 0
    · by_cases he : min s lot.qty = lot.qty
      · simp only [sellLoop, if_pos h, if_pos he]
        intro ml hml
        cases hr : (sellLoop rg p (s - min s lot.qty) rest).2.1 with
        | nil => rw [hr] at hml; simp at hml
        | cons a as =>
          rw [hr, List.dropLast_cons₂] at hml
          rcases List.mem_cons.mp hml with hml | hml
          · subst hml; rfl
          · have := ih (s - min s lot.qty) ml
            rw [hr] at this
            exact this hml
      · simp [sellLoop, h, he]
    · simp [sellLoop, h]

/-- Every parsed quantity is non-negative (it is `abs(float(...))`). -/
theorem parseRow_qty_nonneg (r : Row) (qty price : ℚ)
    (h : parseRow r = some (qty, price)) : 0 ≤ qty := by
  unfold parseRow at h
  cases hq : r.qtyRaw with
  | none => rw [hq] at h; exact absurd h (by simp)
  | some x =>
    cases hp : r.priceRaw with
    | none => rw [hq, hp] at h; exact absurd h (by simp)
    | some y =>
      rw [hq, hp] at h
      have : |x| = qty := congrArg Prod.fst (Option.some.inj h)
      rw [← this]
      exact abs_nonneg x

/-- Every Sale Result recorded by a group's fold arises from a `sellLoop`
call on some queue state, at the result's own sale price and (non-negative)
sale quantity. -/
theorem processGroup_results_arise (cfg : Config) (rows : List Row) :
    ∀ res ∈ (processGroup cfg rows).results,
      ∃ q : List Lot, 0 ≤ res.sellQty ∧
        res.totalGain = (sellLoop cfg.roundGains res.salePrice res.sellQty q).1 ∧
        res.lots = (sellLoop cfg.roundGains res.salePrice res.sellQty q).2.1 := by
  suffices haux : ∀ (rs : List Row) (st : GroupState),
      (∀ res ∈ st.results,
        ∃ q : List Lot, 0 ≤ res.sellQty ∧
          res.totalGain = (sellLoop cfg.roundGains res.salePrice res.sellQty q).1 ∧
          res.lots = (sellLoop cfg.roundGains res.salePrice res.sellQty q).2.1) →
      ∀ res ∈ (rs.foldl (processRow cfg) st).results,
        ∃ q : List Lot, 0 ≤ res.sellQty ∧
          res.totalGain = (sellLoop cfg.roundGains res.salePrice res.sellQty q).1 ∧
          res.lots = (sellLoop cfg.roundGains res.salePrice res.sellQty q).2.1 by
    exact haux rows initState (by simp [initState])
  intro rs
  induction rs with
  | nil => intro st h; simpa using h
  | cons r rs ih =>
    intro st h
    rw [List.foldl_cons]
    apply ih
    intro res hres
    unfold processRow at hres
    cases hp : parseRow r with
    | none =>
      rw [hp] at hres
      exact h res hres
    | some qp =>
      obtain ⟨qty, price⟩ := qp
      rw [hp] at hres
      dsimp only at hres
      by_cases hb : r.ttype ∈ cfg.buyVals
      · rw [if_pos hb] at hres
        exact h res hres
      · rw [if_neg hb] at hres
        by_cases hs : r.ttype ∈ cfg.sellVals
        · rw [if_pos hs] at hres
          simp only [List.mem_append, List.mem_singleton] at hres
          rcases hres with hres | hres
          · exact h res hres
          · subst hres
            exact ⟨st.queue, parseRow_qty_nonneg r qty price hp, rfl, rfl⟩
        · rw [if_neg hs] at hres
          exact h res hres

/-- The immutable part of a lot: its unit price and acquisition date (only
`remainingQuantity` is ever mutated). -/
def lotKey (l : Lot) : ℚ × Date := (l.price, l.date)

/-- The spec's Lot Queue invariant: only lots with strictly positive
remaining quantity, ordered non-decreasing by acquisition date (`NaT`
last). -/
def QueueInv (q : List Lot) : Prop :=
  (∀ l ∈ q, 0 < l.qty) ∧ q.Chain' fun a b => dateLE a.date b.date

instance (q : List Lot) : Decidable (QueueInv q) := by
  unfold QueueInv
  infer_instance

/-- The `(price, date)` pairs of the buy rows of a row sequence, in
processing order: these are the only lots `processRow` ever enqueues. -/
def buyList (cfg : Config) (rows : List Row) : List (ℚ × Date) :=
  rows.filterMap fun r =>
    match parseRow r with
    | some (_, price) => if r.ttype ∈ cfg.buyVals then some (price, r.date) else none
    | none => none

/-- The sell loop preserves the queue invariant: it only pops exhausted
front lots or decrements the front lot to a still-positive remainder. -/
theorem sellLoop_queue_inv (rg : Bool) (p : ℚ) :
    ∀ (q : List Lot) (s : ℚ), QueueInv q → QueueInv (sellLoop rg p s q).2.2 := by
  intro q
  induction q with
  | nil =>
    intro s _
    by_cases h : s > 0 <;> simp [sellLoop, h, QueueInv]
  | cons lot rest ih =>
    intro s hinv
    by_cases h : s > 0
    · by_cases he : min s lot.qty = lot.qty
      · simp only [sellLoop, if_pos h, if_pos he]
        exact ih (s - min s lot.qty)
          ⟨fun l hl => hinv.1 l (List.mem_cons_of_mem _ hl), hinv.2.tail⟩
      · simp only [sellLoop, if_pos h, if_neg he]
        constructor
        · intro l hl
          rcases List.mem_cons.mp hl with rfl | hl
          · have hlt : min s lot.qty < lot.qty :=
              lt_of_le_of_ne (min_le_right _ _) he
            simpa using sub_pos.mpr hlt
          · exact hinv.1 l (List.mem_cons_of_mem _ hl)
        · cases rest with
          | nil => simp
          | cons b bs =>
            have hc := hinv.2
            rw [List.chain'_cons] at hc ⊢
            exact hc
    · simp only [sellLoop, if_neg h]
      exact hinv

/-- The sell loop never reorders the queue and never changes a surviving
lot's price or date: the queue's `(price, date)` sequence only loses a
prefix of entries. -/
theorem sellLoop_queue_key_sublist (rg : Bool) (p : ℚ) :
    ∀ (q : List Lot) (s : ℚ),
      ((sellLoop rg p s q).2.2.map lotKey).Sublist (q.map lotKey) := by
  intro q
  induction q with
  | nil =>
    intro s
    by_cases h : s > 0 <;> simp [sellLoop, h]
  | cons lot rest ih =>
    intro s
    by_cases h : s > 0
    · by_cases he : min s lot.qty = lot.qty
      · simp only [sellLoop, if_pos h, if_pos he]
        exact (ih (s - min s lot.qty)).trans
          (List.sublist_cons_self (lotKey lot) (rest.map lotKey))
      · simp only [sellLoop, if_pos h, if_neg he, List.map_cons]
        exact List.Sublist.refl _
    · simp only [sellLoop, if_neg h]
      exact List.Sublist.refl _

/-- The dates occurring in `buyList` all occur among the rows' dates. -/
theorem buyList_dates_sublist (cfg : Config) :
    ∀ rows : List Row,
      ((buyList cfg rows).map Prod.snd).Sublist (rows.map Row.date) := by
  intro rows
  induction rows with
  | nil => simp [buyList]
  | cons r rows ih =>
    show ((List.filterMap _ (r :: rows)).map Prod.snd).Sublist _
    rw [List.filterMap_cons]
    cases hp : parseRow r with
    | none =>
      exact ih.trans (List.sublist_cons_self r.date (rows.map Row.date))
    | some qp =>
      obtain ⟨qty, price⟩ := qp
      dsimp only
      by_cases hb : r.ttype ∈ cfg.buyVals
      · rw [if_pos hb]
        simpa using List.Sublist.cons₂ r.date ih
      · rw [if_neg hb]
        exact ih.trans (List.sublist_cons_self r.date (rows.map Row.date))

/-- Decomposition of a successful row parse. -/
theorem parseRow_eq_some (r : Row) (qty price : ℚ)
    (h : parseRow r = some (qty, price)) :
    ∃ x, r.qtyRaw = some x ∧ qty = |x| ∧ r.priceRaw = some price := by
  unfold parseRow at h
  cases hq : r.qtyRaw with
  | none => rw [hq] at h; exact absurd h (by simp)
  | some x =>
    cases hpr : r.priceRaw with
    | none => rw [hq, hpr] at h; exact absurd h (by simp)
    | some y =>
      rw [hq, hpr] at h
      obtain ⟨h1, h2⟩ := Prod.mk.injEq .. ▸ Option.some.inj h
      exact ⟨x, rfl, h1.symm, by rw [h2]⟩

/-- Main invariant lemma: over date-sorted rows whose buys have nonzero raw
quantity, the group fold keeps the queue invariant, and the queue's
`(price, date)` entries form a sublist of the buys processed so far (hence
lots sit in the order their buy rows arrived). -/
theorem processGroup_queue_inv (cfg : Config) :
    ∀ rows : List Row,
      (∀ r ∈ rows, r.ttype ∈ cfg.buyVals → r.qtyRaw ≠ some 0) →
      ((rows.map Row.date).Pairwise dateLE) →
      QueueInv (processGroup cfg rows).queue ∧
        ((processGroup cfg rows).queue.map lotKey).Sublist (buyList cfg rows) := by
  intro rows
  induction rows using List.reverseRecOn with
  | nil =>
    intro _ _
    simp [processGroup, initState, QueueInv, buyList]
  | append_singleton rs r ih =>
    intro hqty hsorted
    have hqty' : ∀ r' ∈ rs, r'.ttype ∈ cfg.buyVals → r'.qtyRaw ≠ some 0 :=
      fun r' hr' => hqty r' (List.mem_append_left _ hr')
    have hsorted' : (rs.map Row.date).Pairwise dateLE :=
      hsorted.sublist ((List.sublist_append_left _ _).map Row.date)
    obtain ⟨hinv, hsub⟩ := ih hqty' hsorted'
    have hfold : processGroup cfg (rs ++ [r]) =
        processRow cfg (processGroup cfg rs) r := by
      simp [processGroup, List.foldl_append]
    have hbuyapp : buyList cfg (rs ++ [r]) =
        buyList cfg rs ++ buyList cfg [r] := by
      unfold buyList
      rw [List.filterMap_append]
    rw [hfold, hbuyapp]
    unfold processRow
    cases hp : parseRow r with
    | none =>
      exact ⟨hinv, hsub.trans (List.sublist_append_left _ _)⟩
    | some qp =>
      obtain ⟨qty, price⟩ := qp
      dsimp only
      by_cases hb : r.ttype ∈ cfg.buyVals
      · rw [if_pos hb]
        obtain ⟨x, hx, hqeq, _⟩ := parseRow_eq_some r qty price hp
        have hq0 : 0 < qty := by
          rw [hqeq]
          have : x ≠ 0 := by
            intro h0
            exact hqty r (List.mem_append_right _ (List.mem_singleton_self r)) hb
              (h0 ▸ hx)
          exact abs_pos.mpr this
      -- every lot already in the queue was bought at a date `dateLE r.date`
        have hdates : ∀ l ∈ (processGroup cfg rs).queue, dateLE l.date r.date := by
          intro l hl
          have hmem : lotKey l ∈ buyList cfg rs :=
            hsub.subset (List.mem_map_of_mem lotKey hl)
          have hdmem : l.date ∈ (buyList cfg rs).map Prod.snd :=
            List.mem_map_of_mem Prod.snd hmem
          have hdmem' : l.date ∈ rs.map Row.date :=
            (buyList_dates_sublist cfg rs).subset hdmem
          have hpw := List.pairwise_append.mp
            (by simpa using hsorted : (rs.map Row.date ++ [r.date]).Pairwise dateLE)
          exact hpw.2.2 l.date hdmem' r.date (List.mem_singleton_self _)
        constructor
        · constructor
          · intro l hl
            rcases List.mem_append.mp hl with hl | hl
            · exact hinv.1 l hl
            · rw [List.mem_singleton.mp hl]
              exact hq0
          · rw [List.chain'_append]
            refine ⟨hinv.2, List.chain'_singleton _, ?_⟩
            intro x hx y hy
            rw [List.head?_cons, Option.mem_some_iff] at hy
            subst hy
            exact hdates x (List.mem_of_mem_getLast? hx)
        · rw [List.map_append]
          apply List.Sublist.append hsub
          unfold buyList
          rw [List.filterMap_cons, hp]
          simp [hb, lotKey]
      · rw [if_neg hb]
        by_cases hs' : r.ttype ∈ cfg.sellVals
        · rw [if_pos hs']
          exact ⟨sellLoop_queue_inv _ _ _ _ hinv,
            ((sellLoop_queue_key_sublist _ _ _ _).trans hsub).trans
              (List.sublist_append_left _ _)⟩
        · rw [if_neg hs']
          exact ⟨hinv, hsub.trans (List.sublist_append_left _ _)⟩

/-! ### Claim theorems -/

/-- C1: For every processed sell transaction, the sum of `usedQuantity` over
the ordered matched lots recorded for that sale equals the sale's quantity
exactly (in exact rational arithmetic), for every state of the lot queue,
empty or partially filled; consequently every recorded Sale Result's matched
lots sum to its sale quantity. -/
theorem matched_lots_used_qty_sum_eq_sale_qty :
    (∀ (rg : Bool) (p : ℚ) (q : List Lot) (s : ℚ), 0 ≤ s →
      (((sellLoop rg p s q).2.1).map MatchedLot.usedQty).sum = s) ∧
    (∀ (cfg : Config) (rows : List Row), ∀ res ∈ (processGroup cfg rows).results,
      ((res.lots).map MatchedLot.usedQty).sum = res.sellQty) := by
  constructor
  · exact fun rg p q s hs => sellLoop_sum_used rg p q s hs
  · intro cfg rows res hres
    obtain ⟨q, h0, _, hlots⟩ := processGroup_results_arise cfg rows res hres
    rw [hlots]
    exact sellLoop_sum_used _ _ q _ h0

/-- Witness for C1 at spec Example A's sell (12 units against lots of 10
and 5). -/
theorem matched_lots_used_qty_sum_eq_sale_qty_wit :
    (((sellLoop true 8 12 [⟨10, 5, some 1⟩, ⟨5, 6, some 2⟩]).2.1).map
      MatchedLot.usedQty).sum = 12 :=
  matched_lots_used_qty_sum_eq_sale_qty.1 true 8 [⟨10, 5, some 1⟩, ⟨5, 6, some 2⟩]
    12 (by norm_num)

/-- C2: For every sale, `totalGain` equals the sum over exactly the matched
lots with a known cost basis of the per-lot gain
`usedQuantity * (salePrice - costBasis)`, each rounded to 2 decimal places
before accumulation when `roundGains` is enabled; matched lots with unknown
cost basis contribute exactly `0` (this is what `lotGainAt` computes). -/
theorem total_gain_eq_sum_known_lot_gains :
    (∀ (rg : Bool) (p : ℚ) (q : List Lot) (s : ℚ),
      (sellLoop rg p s q).1 = (((sellLoop rg p s q).2.1).map (lotGainAt rg p)).sum) ∧
    (∀ (cfg : Config) (rows : List Row), ∀ res ∈ (processGroup cfg rows).results,
      res.totalGain = ((res.lots).map (lotGainAt cfg.roundGains res.salePrice)).sum) := by
  constructor
  · exact fun rg p q s => sellLoop_gain_eq rg p q s
  · intro cfg rows res hres
    obtain ⟨q, _, hgain, hlots⟩ := processGroup_results_arise cfg rows res hres
    rw [hgain, hlots]
    exact sellLoop_gain_eq _ _ q _

/-- Witness for C2 on a two-buys-one-sell group whose sell also exercises
the quantity `abs` and the unknown-lot case (sell 20 against lots 10 and 5,
leaving 5 unknown). -/
theorem total_gain_eq_sum_known_lot_gains_wit :
    ∀ res ∈ (processGroup ⟨["B"], ["S"], true⟩
        [⟨some 1, "B", some 10, some 5, "X", "USD"⟩,
         ⟨some 2, "B", some 5, some 6, "X", "USD"⟩,
         ⟨some 3, "S", some (-20), some 8, "X", "USD"⟩]).results,
      res.totalGain = ((res.lots).map (lotGainAt true res.salePrice)).sum :=
  total_gain_eq_sum_known_lot_gains.2 ⟨["B"], ["S"], true⟩
    [⟨some 1, "B", some 10, some 5, "X", "USD"⟩,
     ⟨some 2, "B", some 5, some 6, "X", "USD"⟩,
     ⟨some 3, "S", some (-20), some 8, "X", "USD"⟩]

/-- C5: A sell reaching an empty queue turns the entire remaining quantity
into exactly one matched lot with cost basis, acquisition date and gain all
`'Unknown'` (`none`), contributing `0` to the total gain; and in any sell's
matched-lot list, every lot except possibly the last has a known cost basis,
so unknown-origin matches appear at most once and only in final position. -/
theorem empty_queue_sell_single_unknown_lot :
    (∀ (rg : Bool) (p s : ℚ), 0 < s →
      sellLoop rg p s [] = (0, [⟨s, none, none, p, none⟩], [])) ∧
    (∀ (rg : Bool) (p : ℚ) (q : List Lot) (s : ℚ),
      ∀ ml ∈ ((sellLoop rg p s q).2.1).dropLast, ml.buyPrice.isSome = true) := by
  constructor
  · intro rg p s h
    simp [sellLoop, h]
  · exact fun rg p q s => sellLoop_dropLast_known rg p q s

/-- Witness for C5 at spec Example B (sell 5 at price 10 with no prior
buys). -/
theorem empty_queue_sell_single_unknown_lot_wit :
    sellLoop true 10 5 [] = (0, [⟨5, none, none, 10, none⟩], []) :=
  empty_queue_sell_single_unknown_lot.1 true 10 5 (by norm_num)

/-- C6: A sell with quantity `0` produces no matched lots and a total gain
of `0`, leaves the queue untouched (the `while` guard fails immediately),
and at the row level appends exactly one Sale Result with an empty
matched-lot list while changing nothing else. -/
theorem zero_qty_sell_no_lots_no_mutation :
    (∀ (rg : Bool) (p : ℚ) (q : List Lot), sellLoop rg p 0 q = (0, [], q)) ∧
    (∀ (cfg : Config) (st : GroupState) (r : Row) (price : ℚ),
      parseRow r = some (0, price) → r.ttype ∉ cfg.buyVals → r.ttype ∈ cfg.sellVals →
      processRow cfg st r =
        { st with results := st.results ++ [⟨r.date, r.ident, r.curr, price, 0, 0, []⟩] }) := by
  have h0 : ∀ (rg : Bool) (p : ℚ) (q : List Lot), sellLoop rg p 0 q = (0, [], q) :=
    fun rg p q => sellLoop_nonpos rg p 0 q (by norm_num)
  refine ⟨h0, ?_⟩
  intro cfg st r price hp hb hs
  unfold processRow
  rw [hp]
  dsimp only
  rw [if_neg hb, if_pos hs, h0]

/-- Witness for C6: a 0-quantity sell against a one-lot queue. -/
theorem zero_qty_sell_no_lots_no_mutation_wit :
    processRow ⟨["B"], ["S"], true⟩ ⟨[⟨3, 2, some 1⟩], [], 0⟩
        ⟨some 2, "S", some 0, some 4, "X", "USD"⟩ =
      { queue := [⟨3, 2, some 1⟩], results := [⟨some 2, "X", "USD", 4, 0, 0, []⟩],
        warnings := 0 } :=
  zero_qty_sell_no_lots_no_mutation.2 ⟨["B"], ["S"], true⟩ ⟨[⟨3, 2, some 1⟩], [], 0⟩
    ⟨some 2, "S", some 0, some 4, "X", "USD"⟩ 4 (by decide) (by decide) (by decide)

/-- C10: The sell-matching loop terminates on every input: the embedding
`sellLoop` is total (structural recursion on the queue, since every
iteration either pops the front lot or zeroes the remaining quantity), and
because each iteration appends exactly one matched lot, the number of
iterations — the length of the matched-lot list — is bounded by the queue
length plus one, while the queue never grows. -/
theorem sell_loop_iteration_bound :
    ∀ (rg : Bool) (p : ℚ) (q : List Lot) (s : ℚ),
      ((sellLoop rg p s q).2.1).length ≤ q.length + 1 ∧
      ((sellLoop rg p s q).2.2).length ≤ q.length :=
  fun rg p q s => ⟨sellLoop_lots_length rg p q s, sellLoop_queue_length rg p q s⟩

/-- C3 counterexample: the claimed invariant "the queue contains only lots
with `remainingQuantity > 0`" is violated by a Buy whose quantity parses to
`0`: line 137 appends `[qty, price, date]` unconditionally, so after
processing the single row `Buy 0 @ 5` the queue holds a lot with
`remainingQuantity = 0`. -/
theorem queue_positivity_fails_on_zero_qty_buy :
    ¬ (∀ l ∈ (processGroup ⟨["B"], ["S"], true⟩
        [⟨some 1, "B", some 0, some 5, "X", "USD"⟩]).queue, 0 < l.qty) := by
  decide

/-- C3 (amended): provided every Buy row's quantity parses to a nonzero
value, then at every point during the processing of a group whose rows are
date-sorted (invalid dates last), the queue contains only lots with
`remainingQuantity > 0`, ordered non-decreasing by acquisition date, and the
lots' `(price, date)` entries form a sublist of the buys processed so far —
equal-date lots sit in the order their buy rows arrived. -/
theorem queue_invariant_preserved (cfg : Config) (rows : List Row)
    (hqty : ∀ r ∈ rows, r.ttype ∈ cfg.buyVals → r.qtyRaw ≠ some 0)
    (hsorted : (rows.map Row.date).Pairwise dateLE) :
    ∀ pfx, pfx <+: rows →
      QueueInv (processGroup cfg pfx).queue ∧
        ((processGroup cfg pfx).queue.map lotKey).Sublist (buyList cfg pfx) := by
  intro pfx hpfx
  apply processGroup_queue_inv
  · intro r' hr'
    exact hqty r' (hpfx.sublist.subset hr')
  · exact hsorted.sublist (hpfx.sublist.map Row.date)

/-- Witness for the amended C3 on a four-row group (two buys, a partial
sell, and a skipped unparseable row). -/
theorem queue_invariant_preserved_wit :
    QueueInv (processGroup ⟨["B"], ["S"], true⟩
        [⟨some 1, "B", some 10, some 5, "X", "USD"⟩,
         ⟨some 2, "B", some 5, some 6, "X", "USD"⟩,
         ⟨some 2, "Z", none, some 1, "X", "USD"⟩,
         ⟨some 3, "S", some 12, some 8, "X", "USD"⟩]).queue ∧
      ((processGroup ⟨["B"], ["S"], true⟩
        [⟨some 1, "B", some 10, some 5, "X", "USD"⟩,
         ⟨some 2, "B", some 5, some 6, "X", "USD"⟩,
         ⟨some 2, "Z", none, some 1, "X", "USD"⟩,
         ⟨some 3, "S", some 12, some 8, "X", "USD"⟩]).queue.map lotKey).Sublist
        (buyList ⟨["B"], ["S"], true⟩
        [⟨some 1, "B", some 10, some 5, "X", "USD"⟩,
         ⟨some 2, "B", some 5, some 6, "X", "USD"⟩,
         ⟨some 2, "Z", none, some 1, "X", "USD"⟩,
         ⟨some 3, "S", some 12, some 8, "X", "USD"⟩]) :=
  queue_invariant_preserved ⟨["B"], ["S"], true⟩
    [⟨some 1, "B", some 10, some 5, "X", "USD"⟩,
     ⟨some 2, "B", some 5, some 6, "X", "USD"⟩,
     ⟨some 2, "Z", none, some 1, "X", "USD"⟩,
     ⟨some 3, "S", some 12, some 8, "X", "USD"⟩]
    (by decide) (by decide) _ List.prefix_rfl

/-- C7: With no Buy values or no Sell values selected, the computation
aborts with a configuration error (lines 100-102 run `st.stop()` before the
calculation button is even offered) and produces no Sale Results. -/
theorem empty_buy_or_sell_config_aborts (cfg : Config) (rows : List Row)
    (h : cfg.buyVals = [] ∨ cfg.sellVals = []) :
    runCalc cfg rows = Except.error CalcError.configError := by
  unfold runCalc
  rw [if_pos h]

/-- Witness for C7 with an empty Buy set and a nonempty input. -/
theorem empty_buy_or_sell_config_aborts_wit :
    runCalc ⟨[], ["S"], true⟩ [⟨some 1, "S", some 3, some 2, "X", "USD"⟩] =
      Except.error CalcError.configError :=
  empty_buy_or_sell_config_aborts ⟨[], ["S"], true⟩
    [⟨some 1, "S", some 3, some 2, "X", "USD"⟩] (Or.inl rfl)

/-- `processRow` only reads a state's queue and results, so two states
agreeing there stay in agreement (the warning counter never feeds back). -/
theorem processRow_congr_queue_results (cfg : Config) (r : Row) :
    ∀ st st' : GroupState, st.queue = st'.queue → st.results = st'.results →
      (processRow cfg st r).queue = (processRow cfg st' r).queue ∧
      (processRow cfg st r).results = (processRow cfg st' r).results := by
  intro st st' hq hr
  unfold processRow
  cases hp : parseRow r with
  | none => exact ⟨hq, hr⟩
  | some qp =>
    obtain ⟨qty, price⟩ := qp
    dsimp only
    by_cases hb : r.ttype ∈ cfg.buyVals
    · simp only [if_pos hb]
      exact ⟨by rw [hq], hr⟩
    · simp only [if_neg hb]
      by_cases hs : r.ttype ∈ cfg.sellVals
      · simp only [if_pos hs]
        rw [hq, hr]
        exact ⟨rfl, rfl⟩
      · simp only [if_neg hs]
        exact ⟨hq, hr⟩

/-- Lifting of `processRow_congr_queue_results` to the whole fold. -/
theorem foldl_congr_queue_results (cfg : Config) :
    ∀ (rows : List Row) (st st' : GroupState),
      st.queue = st'.queue → st.results = st'.results →
      ((rows.foldl (processRow cfg) st).queue =
        (rows.foldl (processRow cfg) st').queue ∧
       (rows.foldl (processRow cfg) st).results =
        (rows.foldl (processRow cfg) st').results) := by
  intro rows
  induction rows with
  | nil => exact fun st st' hq hr => ⟨hq, hr⟩
  | cons r rows ih =>
    intro st st' hq hr
    rw [List.foldl_cons, List.foldl_cons]
    obtain ⟨hq', hr'⟩ := processRow_congr_queue_results cfg r st st' hq hr
    exact ih _ _ hq' hr'

/-- C8: A row whose quantity or price fails numeric conversion is dropped
with exactly one per-row warning — the queue and all previously produced
results are untouched — and the remaining rows are processed exactly as if
the bad row were absent (no global abort). -/
theorem bad_row_dropped_processing_continues (cfg : Config) (st : GroupState)
    (r : Row) (h : parseRow r = none) :
    processRow cfg st r = { st with warnings := st.warnings + 1 } ∧
    ∀ post : List Row,
      ((r :: post).foldl (processRow cfg) st).queue =
        (post.foldl (processRow cfg) st).queue ∧
      ((r :: post).foldl (processRow cfg) st).results =
        (post.foldl (processRow cfg) st).results := by
  have h1 : processRow cfg st r = { st with warnings := st.warnings + 1 } := by
    unfold processRow
    rw [h]
  refine ⟨h1, ?_⟩
  intro post
  rw [List.foldl_cons, h1]
  exact foldl_congr_queue_results cfg post _ st rfl rfl

/-- Witness for C8: a buy row with an unconvertible quantity cell. -/
theorem bad_row_dropped_processing_continues_wit :
    processRow ⟨["B"], ["S"], true⟩ ⟨[⟨3, 2, some 1⟩], [], 0⟩
        ⟨some 2, "B", none, some 5, "X", "USD"⟩ =
      { queue := [⟨3, 2, some 1⟩], results := [], warnings := 1 } :=
  (bad_row_dropped_processing_continues ⟨["B"], ["S"], true⟩
    ⟨[⟨3, 2, some 1⟩], [], 0⟩ ⟨some 2, "B", none, some 5, "X", "USD"⟩ rfl).1

/-- C9: A parsed row whose transaction-type value is in neither the Buy set
nor the Sell set is silently ignored: the state — queue, results and even
the warning count — is exactly unchanged. -/
theorem unclassified_row_silently_ignored (cfg : Config) (st : GroupState)
    (r : Row) (qty price : ℚ) (hp : parseRow r = some (qty, price))
    (hb : r.ttype ∉ cfg.buyVals) (hs : r.ttype ∉ cfg.sellVals) :
    processRow cfg st r = st := by
  unfold processRow
  rw [hp]
  dsimp only
  rw [if_neg hb, if_neg hs]

/-- Witness for C9: a `Dividend` row leaves a nonempty state untouched. -/
theorem unclassified_row_silently_ignored_wit :
    processRow ⟨["B"], ["S"], true⟩ ⟨[⟨3, 2, some 1⟩], [], 0⟩
        ⟨some 2, "Dividend", some 7, some 4, "X", "USD"⟩ =
      ⟨[⟨3, 2, some 1⟩], [], 0⟩ :=
  unclassified_row_silently_ignored ⟨["B"], ["S"], true⟩ ⟨[⟨3, 2, some 1⟩], [], 0⟩
    ⟨some 2, "Dividend", some 7, some 4, "X", "USD"⟩ 7 4 (by decide)
    (by decide) (by decide)

end FifoCalc
